import Mathlib

/-!
Formal model of the H-κ stacking engine of rfpy (module rfpy/hkstack.py,
class HKStack) and verification of the specified properties.

The numerical code is embedded shallowly over the real numbers:

* a SAC trace becomes a `Trace` (amplitude list plus the header scalars
  b, delta and user8 = ray parameter p that the stacking code reads);
* numpy integer "fancy" indexing (negative wrap-around, IndexError on
  anything out of range) becomes `npGet` returning an `Option`;
* float-to-int conversion by astype(int) (truncation toward zero)
  becomes `truncZ`;
* np.arange becomes `arangeR` (its documented semantics: exactly
  ceil((stop-start)/step) values start + i*step, upper bound excluded);
* the per-trace loop of HKStack._do_hkstack becomes `traceCell` /
  `traceMatrix` / `accumStack`, the maximum / argmax / clip / rescale
  epilogue becomes `doHKStackCore`, and the stateful dispatch on is_bs
  becomes `do_hkstack` over an explicit `HKState`;
* scipy.signal.hilbert is an external library call; it is modelled as an
  explicit function parameter `hilb` handed to the stack, exactly as
  np.random.rand is modelled by the index-choice parameter `pick` of
  `make_bootstrap_st`;
* the statistics epilogue of HKStack._do_bootstrap (the code after the
  worker pool join, operating on the collected per-trial arrays) becomes
  `do_bootstrap_stats`, and HKStack._covariance_ellipse becomes
  `ellipseTilt` / `covariance_ellipse`.

Definitions named `...Spec` are stated from the specification's wording
(sample standard deviation, Pearson correlation, the per-trace stacking
contribution written with the spec's travel-time formulas) and are compared
against the code model by theorem.
-/

/-- One receiver-function trace: the amplitude samples and the per-trace SAC
header scalars read by HKStack._do_hkstack (b = time of first sample,
delta = sample interval, p = ray parameter from header field user8). -/
structure Trace where
  data : List ℝ
  b : ℝ
  delta : ℝ
  p : ℝ

/-- Numpy integer indexing of a 1-D array: a nonnegative index selects from
the front, a negative index within range silently wraps around and selects
from the back, and any other index is an IndexError (modelled as `none`). -/
def npGet {α : Type} (xs : List α) (i : ℤ) : Option α :=
  if 0 ≤ i then xs[i.toNat]?
  else if 0 ≤ i + xs.length then xs[(i + xs.length).toNat]? else none

/-- Float-to-integer conversion as performed by numpy's astype(int):
truncation toward zero. -/
noncomputable def truncZ (x : ℝ) : ℤ := if 0 ≤ x then ⌊x⌋ else ⌈x⌉

/-- Amplitude used by the stack at predicted time t, from the lines
t1 = ((time - beg)/delta).astype(int) and
rf1 = tr.data[t1] + (tr.data[t1+1] - tr.data[t1]) * (time - beg - t1*delta)/delta
of HKStack._do_hkstack. Index errors surface as `none`. -/
noncomputable def interpAmp (tr : Trace) (t : ℝ) : Option ℝ :=
  let idx := truncZ ((t - tr.b) / tr.delta)
  match npGet tr.data idx, npGet tr.data (idx + 1) with
  | some a, some a1 =>
      some (a + (a1 - a) * (t - tr.b - (idx : ℝ) * tr.delta) / tr.delta)
  | _, _ => none

/-- The quantity the phase-weighted branch computes from one analytic-signal
sample z: np.cos(z) + 1j*np.sin(z), i.e. the complex cosine and sine applied
to the complex sample itself. -/
noncomputable def phasorOf (z : ℂ) : ℂ := Complex.cos z + Complex.I * Complex.sin z

/-- Linear interpolation of `phasorOf` between two adjacent analytic-signal
samples, mirroring the imrf1/imrf2/imrf3 lines of HKStack._do_hkstack. -/
noncomputable def interpPhasor (analytic : List ℂ) (tr : Trace) (t : ℝ) : Option ℂ :=
  let idx := truncZ ((t - tr.b) / tr.delta)
  match npGet analytic idx, npGet analytic (idx + 1) with
  | some z, some z1 =>
      some (phasorOf z + (phasorOf z1 - phasorOf z) *
        (((t - tr.b - (idx : ℝ) * tr.delta) / tr.delta : ℝ) : ℂ))
  | _, _ => none

/-- The configuration fields of HKStack.__init__ used by the stacking
computation itself. -/
structure HKConfig where
  vp : ℝ
  depth_range : ℝ × ℝ
  depth_inc : ℝ
  kappa_range : ℝ × ℝ
  kappa_inc : ℝ
  w1 : ℝ
  w2 : ℝ
  w3 : ℝ
  pws : Bool

/-- np.arange(start, stop, step) in exact arithmetic: ceil((stop-start)/step)
values start + i*step, the upper bound excluded (numpy's documented
semantics; an empty array when the count is nonpositive). -/
noncomputable def arangeR (start stop step : ℝ) : List ℝ :=
  (List.range (⌈(stop - start) / step⌉).toNat).map (fun (i : ℕ) => start + (i : ℝ) * step)

/-- HKStack._set_hkgrid: the depth axis and the kappa axis of the grid. -/
noncomputable def set_hkgrid (cfg : HKConfig) : List ℝ × List ℝ :=
  (arangeR cfg.depth_range.1 cfg.depth_range.2 cfg.depth_inc,
   arangeR cfg.kappa_range.1 cfg.kappa_range.2 cfg.kappa_inc)

/-- Contribution of one trace to one grid cell (H, κ) in HKStack._do_hkstack:
etap = sqrt(1/vp² - p²), vs = vp/κ, etas = sqrt(1/vs² - p²), the three
predicted times, the three interpolated amplitudes, and either the linear
combination w1*rf1 + w2*rf2 - w3*rf3 or, when pws is set, that combination
times (1/n)*|w1*imrf1 + w2*imrf2 - w3*imrf3| where n is the trace count and
imrf interpolates `phasorOf` over the analytic signal `hilb tr.data`. -/
noncomputable def traceCell (cfg : HKConfig) (n : ℕ) (hilb : List ℝ → List ℂ)
    (tr : Trace) (H κ : ℝ) : Option ℝ :=
  let etap := Real.sqrt (1 / cfg.vp ^ 2 - tr.p ^ 2)
  let vs := cfg.vp / κ
  let etas := Real.sqrt (1 / vs ^ 2 - tr.p ^ 2)
  let tPs := H * (etas - etap)
  let tPpPs := H * (etas + etap)
  let tPpSs := H * (2 * etas)
  match interpAmp tr tPs, interpAmp tr tPpPs, interpAmp tr tPpSs with
  | some rf1, some rf2, some rf3 =>
      if cfg.pws then
        match interpPhasor (hilb tr.data) tr tPs, interpPhasor (hilb tr.data) tr tPpPs,
            interpPhasor (hilb tr.data) tr tPpSs with
        | some im1, some im2, some im3 =>
            some ((cfg.w1 * rf1 + cfg.w2 * rf2 - cfg.w3 * rf3) *
              ((1 / (n : ℝ)) *
                Complex.abs ((cfg.w1 : ℂ) * im1 + (cfg.w2 : ℂ) * im2 - (cfg.w3 : ℂ) * im3)))
        | _, _, _ => none
      else some (cfg.w1 * rf1 + cfg.w2 * rf2 - cfg.w3 * rf3)
  | _, _, _ => none

/-- Mapping a fallible function over a list, failing if any element fails
(the way a raised IndexError aborts the vectorized numpy expression). -/
def listOptMap {α β : Type} (f : α → Option β) : List α → Option (List β)
  | [] => some []
  | a :: as =>
      match f a, listOptMap f as with
      | some b, some bs => some (b :: bs)
      | _, _ => none

/-- The (κ-index, H-index)-shaped matrix of one trace's contributions to
every grid cell (the vectorized per-trace body of HKStack._do_hkstack). -/
noncomputable def traceMatrix (cfg : HKConfig) (n : ℕ) (hilb : List ℝ → List ℂ)
    (tr : Trace) (depths kappas : List ℝ) : Option (List (List ℝ)) :=
  listOptMap (fun κ => listOptMap (fun H => traceCell cfg n hilb tr H κ) depths) kappas

/-- Elementwise matrix addition (numpy + on same-shaped arrays). -/
def matAdd (a b : List (List ℝ)) : List (List ℝ) :=
  List.zipWith (List.zipWith (· + ·)) a b

/-- The all-zero accumulator the stack loop starts from. In the source the
initial np.zeros((len(kk), len(hh))) has shape (nK, 1) because the meshgrid
is sparse, and numpy broadcasting stretches it against each (nK, nD)
per-trace matrix; for a non-empty stream the accumulated result is the same
as starting from the (nK, nD) zero matrix modelled here. -/
def zeroMatrix (nk nd : ℕ) : List (List ℝ) :=
  List.replicate nk (List.replicate nd 0)

/-- One iteration of the trace loop of HKStack._do_hkstack: add the trace's
contribution matrix to the accumulator; an index error aborts the run. -/
noncomputable def stackStep (cfg : HKConfig) (hilb : List ℝ → List ℂ) (n : ℕ)
    (depths kappas : List ℝ) (acc : Option (List (List ℝ))) (tr : Trace) :
    Option (List (List ℝ)) := do
  let a ← acc
  let m ← traceMatrix cfg n hilb tr depths kappas
  pure (matAdd a m)

/-- The trace loop of HKStack._do_hkstack: starting from zeros, add each
trace's contribution matrix; any index error aborts the whole run. -/
noncomputable def accumStack (cfg : HKConfig) (hilb : List ℝ → List ℂ) (st : List Trace)
    (depths kappas : List ℝ) : Option (List (List ℝ)) :=
  st.foldl (stackStep cfg hilb st.length depths kappas)
    (some (zeroMatrix kappas.length depths.length))

/-- np.amax over a 2-D array: the maximum of all entries, an error (none)
on a zero-size array. -/
noncomputable def matMax (m : List (List ℝ)) : Option ℝ := m.flatten.max?

/-- Column indices within one row (starting at offset j) whose entry equals
v, in left-to-right order. -/
noncomputable def argmaxRowFrom (v : ℝ) : ℕ → List ℝ → List ℕ
  | _, [] => []
  | j, x :: xs =>
      if x = v then j :: argmaxRowFrom v (j + 1) xs else argmaxRowFrom v (j + 1) xs

/-- Row-major enumeration (starting at row offset i) of all cells whose entry
equals v. -/
noncomputable def argmaxCellsFrom (v : ℝ) : ℕ → List (List ℝ) → List (ℕ × ℕ)
  | _, [] => []
  | i, row :: rows =>
      (argmaxRowFrom v 0 row).map (fun j => (i, j)) ++ argmaxCellsFrom v (i + 1) rows

/-- np.where(stack == smax) flattened to (row, column) pairs: all cells whose
entry equals v, enumerated in row-major (C-order) scan order. -/
noncomputable def argmaxCells (m : List (List ℝ)) (v : ℝ) : List (ℕ × ℕ) :=
  argmaxCellsFrom v 0 m

/-- The values HKStack._do_hkstack produces: the normalized stack surface and
the arrays maxh, maxk, maxvs of optimum coordinates. -/
structure StackOut where
  stack : List (List ℝ)
  maxh : List ℝ
  maxk : List ℝ
  maxvs : List ℝ

/-- The epilogue of HKStack._do_hkstack after the trace loop: smax = np.amax
of the accumulated stack, maxh/maxk from np.where(stack == smax) (all tied
cells, row-major), clip at 0, rescale by 100/smax, and maxvs = vp/maxk. -/
noncomputable def doHKStackCore (cfg : HKConfig) (hilb : List ℝ → List ℂ) (st : List Trace)
    (depths kappas : List ℝ) : Option StackOut := do
  let a ← accumStack cfg hilb st depths kappas
  let smax ← matMax a
  let cells := argmaxCells a smax
  let maxh := cells.map (fun c => depths.getD c.2 0)
  let maxk := cells.map (fun c => kappas.getD c.1 0)
  let norm := a.map (fun row => row.map (fun x => max x 0 * 100 / smax))
  pure ⟨norm, maxh, maxk, maxk.map (fun κ => cfg.vp / κ)⟩

/-- Grid construction followed by the stack, as HKStack.__init__ runs them.
No configuration validation is performed anywhere on this path, mirroring
the source. -/
noncomputable def runHK (cfg : HKConfig) (hilb : List ℝ → List ℂ) (stream : List Trace) :
    Option StackOut :=
  doHKStackCore cfg hilb stream (set_hkgrid cfg).1 (set_hkgrid cfg).2

/-- The instance fields of an HKStack object touched by _do_hkstack and the
bootstrap path. -/
structure HKState where
  stream : List Trace
  bootstrap_st : List Trace
  vs : Option (List ℝ)
  stack : Option (List (List ℝ))
  maxh : Option (List ℝ)
  maxk : Option (List ℝ)
  maxvs : Option (List ℝ)

/-- HKStack._do_hkstack as a state transformer: select the input stream by
is_bs, compute, and either return the results as values (is_bs = True,
leaving the stored primary results untouched) or store them on the object
(is_bs = False). The assignment self.vs = vp/kk happens on both paths. -/
noncomputable def do_hkstack (cfg : HKConfig) (hilb : List ℝ → List ℂ)
    (depths kappas : List ℝ) (s : HKState) (is_bs : Bool) :
    Option (HKState × Option StackOut) :=
  let st := if is_bs then s.bootstrap_st else s.stream
  let vs' := kappas.map (fun κ => cfg.vp / κ)
  match doHKStackCore cfg hilb st depths kappas with
  | none => none
  | some out =>
      if is_bs then some ({ s with vs := some vs' }, some out)
      else
        some ({ s with vs := some vs', stack := some out.stack, maxh := some out.maxh,
                       maxk := some out.maxk, maxvs := some out.maxvs }, none)

/-- HKStack._make_bootstrap_st: draw len(stream) traces from the stream with
replacement. The random draw int(len(stream)*np.random.rand()) is modelled
by the index-choice parameter pick. -/
def make_bootstrap_st (stream : List Trace) (pick : ℕ → ℕ) : List Trace :=
  (List.range stream.length).map (fun i => stream.getD (pick i) ⟨[], 0, 0, 0⟩)

/-- np.mean of a 1-D array. -/
noncomputable def npMean (xs : List ℝ) : ℝ := xs.sum / xs.length

/-- np.std of a 1-D array with the default ddof = 0: the square root of the
mean squared deviation (dividing by N). -/
noncomputable def npStd (xs : List ℝ) : ℝ :=
  Real.sqrt ((xs.map (fun x => (x - npMean xs) ^ 2)).sum / xs.length)

/-- np.corrcoef(x, y)[0][1]: the off-diagonal covariance (numpy default
ddof = 1) divided by the product of the square roots of the diagonal
entries. -/
noncomputable def npCorrcoef (xs ys : List ℝ) : ℝ :=
  (((xs.zip ys).map (fun q => (q.1 - npMean xs) * (q.2 - npMean ys))).sum / (xs.length - 1)) /
    (Real.sqrt ((xs.map (fun x => (x - npMean xs) ^ 2)).sum / (xs.length - 1)) *
     Real.sqrt ((ys.map (fun y => (y - npMean ys) ^ 2)).sum / (ys.length - 1)))

/-- The statistics epilogue of HKStack._do_bootstrap, applied to the per-trial
maxima collected from the worker pool: sigmak/sigmah via np.std and correl
via np.corrcoef (the intermediate sumhk is computed and discarded, as in the
source). Returns (sigmak, sigmah, correl). -/
noncomputable def do_bootstrap_stats (bs_depths bs_kappas : List ℝ) : ℝ × ℝ × ℝ :=
  let kavg := npMean bs_kappas
  let havg := npMean bs_depths
  let sumhk := ((bs_depths.zip bs_kappas).map (fun q => (q.1 - havg) * (q.2 - kavg))).sum
  (npStd bs_kappas, npStd bs_depths, npCorrcoef bs_depths bs_kappas)

/-- The tilt angle computed by HKStack._covariance_ellipse:
arctan(2*corr*sigh*sigk/(sigh² - sigk²))/2, with no special case for
sigh = sigk. -/
noncomputable def ellipseTilt (corr sigh sigk : ℝ) : ℝ :=
  Real.arctan (2 * corr * sigh * sigk / (sigh * sigh - sigk * sigk)) / 2

/-- HKStack._covariance_ellipse: the nell ellipse points
(maxh + xp*cos(tilt) - yp*sin(tilt), maxk + yp*cos(tilt) + xp*sin(tilt))
with xp = sqrt(p1)*cos(t), yp = sqrt(p2)*sin(t), t = i*2π/nell. -/
noncomputable def covariance_ellipse (maxh maxk sigh sigk corr : ℝ) (nell : ℕ) :
    List (ℝ × ℝ) :=
  let tilt := ellipseTilt corr sigh sigk
  let p1 := sigh * sigh * sigk * sigk * (1 - corr * corr) /
    (sigk * sigk * Real.cos tilt * Real.cos tilt -
     2 * corr * sigh * sigk * Real.sin tilt * Real.cos tilt +
     sigh * sigh * Real.sin tilt * Real.sin tilt)
  let p2 := sigh * sigh * sigk * sigk * (1 - corr * corr) /
    (sigk * sigk * Real.sin tilt * Real.sin tilt +
     2 * corr * sigh * sigk * Real.sin tilt * Real.cos tilt +
     sigh * sigh * Real.cos tilt * Real.cos tilt)
  (List.range nell).map (fun i =>
    let t := (i : ℝ) * 2 * Real.pi / nell
    (maxh + Real.sqrt p1 * Real.cos t * Real.cos tilt -
       Real.sqrt p2 * Real.sin t * Real.sin tilt,
     maxk + Real.sqrt p2 * Real.sin t * Real.cos tilt +
       Real.sqrt p1 * Real.cos t * Real.sin tilt))

/-- Modelled from the spec: the per-trace stacking contribution written with
the specification's formulas (vs = vp/κ, η_p, η_s, t_Ps, t_PpPs, t_PpSs and
the linear combination w1·rf_Ps + w2·rf_PpPs - w3·rf_PpSs of interpolated
amplitudes). -/
noncomputable def contribSpec (cfg : HKConfig) (tr : Trace) (H κ : ℝ) : Option ℝ :=
  let vs := cfg.vp / κ
  let etaP := Real.sqrt (1 / cfg.vp ^ 2 - tr.p ^ 2)
  let etaS := Real.sqrt (1 / vs ^ 2 - tr.p ^ 2)
  match interpAmp tr (H * (etaS - etaP)), interpAmp tr (H * (etaS + etaP)),
      interpAmp tr (H * (2 * etaS)) with
  | some rfPs, some rfPpPs, some rfPpSs =>
      some (cfg.w1 * rfPs + cfg.w2 * rfPpPs - cfg.w3 * rfPpSs)
  | _, _, _ => none

/-- Modelled from the spec: the sample standard deviation (Bessel-corrected,
dividing by N - 1) of a list of values. -/
noncomputable def sampleStd (xs : List ℝ) : ℝ :=
  Real.sqrt ((xs.map (fun x => (x - npMean xs) ^ 2)).sum / (xs.length - 1))

/-- Modelled from the spec: the Pearson correlation coefficient of two lists
of values. -/
noncomputable def pearsonSpec (xs ys : List ℝ) : ℝ :=
  ((xs.zip ys).map (fun q => (q.1 - npMean xs) * (q.2 - npMean ys))).sum /
    (Real.sqrt ((xs.map (fun x => (x - npMean xs) ^ 2)).sum) *
     Real.sqrt ((ys.map (fun y => (y - npMean ys) ^ 2)).sum))

/-- Concrete valid configuration used for witnesses and counterexamples:
vp = 1, depth axis [1, 2], kappa axis [1], default weights, linear stack. -/
noncomputable def cfg0 : HKConfig :=
  ⟨1, (1, 3), 1, (1, 2), 1, 7/10, 2/10, 1/10, false⟩

/-- cfg0 with a non-positive vp (vp = -1), otherwise identical. -/
noncomputable def cfgNegVp : HKConfig :=
  ⟨-1, (1, 3), 1, (1, 2), 1, 7/10, 2/10, 1/10, false⟩

/-- cfg0 with the depth range reversed (non-increasing), giving a zero-size
depth axis. -/
noncomputable def cfgRev : HKConfig :=
  ⟨1, (3, 1), 1, (1, 2), 1, 7/10, 2/10, 1/10, false⟩

/-- A trace whose six samples are all 1 (b = 0, delta = 1, p = 0). -/
noncomputable def trOnes : Trace := ⟨List.replicate 6 1, 0, 1, 0⟩

/-- A trace whose six samples are all -1 (b = 0, delta = 1, p = 0). -/
noncomputable def trNegs : Trace := ⟨List.replicate 6 (-1), 0, 1, 0⟩

/-- A three-sample trace with samples 1, 4, 0 (b = 0, delta = 1). -/
noncomputable def trC5 : Trace := ⟨[1, 4, 0], 0, 1, 0⟩

/-- A trivial stand-in for the hilbert-transform parameter (never consulted
on the linear-stack path). -/
def hilb0 : List ℝ → List ℂ := fun _ => []

/-- Initial object state for the frame-effect witness: primary results unset,
bootstrap stream holding trOnes. -/
noncomputable def s0 : HKState := ⟨[], [trOnes], none, none, none, none, none⟩

/-- The state s0 after one bootstrap-mode stack invocation: only the vs field
has been written. -/
noncomputable def s1 : HKState := ⟨[], [trOnes], some [1], none, none, none, none⟩

/-- Entry (i, j) of a matrix, with defaults for out-of-range indices. -/
def entry (m : List (List ℝ)) (i j : ℕ) : ℝ := (m.getD i []).getD j 0

/-- A matrix has nk rows, each of length nd. -/
def ShapeOf (nk nd : ℕ) (m : List (List ℝ)) : Prop :=
  m.length = nk ∧ ∀ (i : ℕ) (row : List ℝ), m[i]? = some row → row.length = nd

/-- Expected output of the stack on cfg0 and the all-ones trace. -/
noncomputable def outOnes : StackOut := ⟨[[100, 100]], [1, 2], [1, 1], [1, 1]⟩

/-- Expected output of the stack on cfg0 and the all-minus-ones trace. -/
noncomputable def outNegs : StackOut := ⟨[[0, 0]], [1, 2], [1, 1], [1, 1]⟩

/-- Expected output of the stack on cfgNegVp and the all-ones trace. -/
noncomputable def outNegVp : StackOut := ⟨[[100, 100]], [1, 2], [1, 1], [-1, -1]⟩

/-! ### General list lemmas -/

theorem zipWith_getElem? {α β γ : Type} (g : α → β → γ) :
    ∀ (as : List α) (bs : List β) (i : ℕ),
      (List.zipWith g as bs)[i]? =
        match as[i]?, bs[i]? with
        | some a, some b => some (g a b)
        | _, _ => none
  | [], _, _ => by simp
  | _ :: _, [], _ => by simp
  | a :: as, b :: bs, 0 => by simp
  | a :: as, b :: bs, i + 1 => by
      simpa using zipWith_getElem? g as bs i

theorem listOptMap_some {α β : Type} (f : α → Option β) :
    ∀ (xs : List α) (ys : List β), listOptMap f xs = some ys →
      ys.length = xs.length ∧
        ∀ (i : ℕ) (a : α), xs[i]? = some a → ∃ b, ys[i]? = some b ∧ f a = some b
  | [], ys, h => by
      simp only [listOptMap, Option.some.injEq] at h
      subst h
      simp
  | a :: as, ys, h => by
      simp only [listOptMap] at h
      cases hfa : f a with
      | none => rw [hfa] at h; exact absurd h (by simp)
      | some b =>
          rw [hfa] at h
          cases hrest : listOptMap f as with
          | none => rw [hrest] at h; exact absurd h (by simp)
          | some bs =>
              rw [hrest] at h
              simp only [Option.some.injEq] at h
              subst h
              obtain ⟨hlen, hget⟩ := listOptMap_some f as bs hrest
              refine ⟨by simpa using hlen, ?_⟩
              intro i x hx
              match i with
              | 0 =>
                  simp only [List.getElem?_cons_zero, Option.some.injEq] at hx
                  subst hx
                  exact ⟨b, by simp, hfa⟩
              | i + 1 =>
                  simp only [List.getElem?_cons_succ] at hx ⊢
                  exact hget i x hx

theorem listOptMap_of_some {α β : Type} (g : α → β) :
    ∀ (xs : List α), listOptMap (fun a => some (g a)) xs = some (xs.map g)
  | [] => rfl
  | a :: as => by
      simp only [listOptMap, List.map_cons]
      rw [listOptMap_of_some g as]

theorem real_max?_eq_some_iff {l : List ℝ} {m : ℝ} :
    l.max? = some m ↔ m ∈ l ∧ ∀ b ∈ l, b ≤ m :=
  have : Std.Antisymm (fun (a b : ℝ) => a ≤ b) := ⟨fun h h2 => le_antisymm h h2⟩
  List.max?_eq_some_iff le_refl max_choice (fun _ _ _ => max_le_iff)

theorem max?_map_mono {f : ℝ → ℝ} (hf : Monotone f) {l : List ℝ} {m : ℝ}
    (h : l.max? = some m) : (l.map f).max? = some (f m) := by
  obtain ⟨hm, hb⟩ := real_max?_eq_some_iff.mp h
  refine real_max?_eq_some_iff.mpr ⟨List.mem_map_of_mem f hm, ?_⟩
  intro y hy
  obtain ⟨x, hx, rfl⟩ := List.mem_map.mp hy
  exact hf (hb x hx)

theorem entry_of_getElem? {m : List (List ℝ)} {i j : ℕ} {row : List ℝ} {x : ℝ}
    (hrow : m[i]? = some row) (hx : row[j]? = some x) : entry m i j = x := by
  rw [entry, List.getD_eq_getElem?_getD m i, hrow, Option.getD_some,
    List.getD_eq_getElem?_getD row j, hx, Option.getD_some]

/-! ### Structure of the per-trace matrix and the accumulator -/

theorem traceMatrix_spec {cfg : HKConfig} {n : ℕ} {hilb : List ℝ → List ℂ} {tr : Trace}
    {depths kappas : List ℝ} {M : List (List ℝ)}
    (h : traceMatrix cfg n hilb tr depths kappas = some M) :
    ShapeOf kappas.length depths.length M ∧
      ∀ i j, i < kappas.length → j < depths.length →
        traceCell cfg n hilb tr (depths.getD j 0) (kappas.getD i 0) = some (entry M i j) := by
  obtain ⟨hlen, hget⟩ := listOptMap_some _ _ _ h
  have hrow : ∀ (i : ℕ) (row : List ℝ), M[i]? = some row →
      listOptMap (fun H => traceCell cfg n hilb tr H (kappas.getD i 0)) depths = some row := by
    intro i row hr
    have hi : i < M.length := by
      rcases List.getElem?_eq_some_iff.mp hr with ⟨hi, _⟩
      exact hi
    have hik : i < kappas.length := hlen ▸ hi
    obtain ⟨b, hb, hfb⟩ := hget i kappas[i] (List.getElem?_eq_getElem hik)
    rw [hr] at hb
    injection hb with hb2
    subst hb2
    have : kappas.getD i 0 = kappas[i] := by
      rw [List.getD_eq_getElem?_getD, List.getElem?_eq_getElem hik, Option.getD_some]
    rw [this]
    exact hfb
  constructor
  · refine ⟨by rw [hlen], ?_⟩
    intro i row hr
    obtain ⟨hlen2, _⟩ := listOptMap_some _ _ _ (hrow i row hr)
    exact hlen2
  · intro i j hi hj
    have hMi : M[i]? = some M[i] := List.getElem?_eq_getElem (by rw [hlen]; exact hi)
    have hinner := hrow i M[i] hMi
    obtain ⟨_, hgetin⟩ := listOptMap_some _ _ _ hinner
    obtain ⟨b, hb, hfb⟩ := hgetin j depths[j] (List.getElem?_eq_getElem hj)
    have hD : depths.getD j 0 = depths[j] := by
      rw [List.getD_eq_getElem?_getD, List.getElem?_eq_getElem hj, Option.getD_some]
    rw [hD, hfb, entry_of_getElem? hMi hb]

theorem zeroMatrix_shape (nk nd : ℕ) : ShapeOf nk nd (zeroMatrix nk nd) := by
  constructor
  · simp [zeroMatrix]
  · intro i row hr
    rw [zeroMatrix, List.getElem?_replicate] at hr
    by_cases hi : i < nk
    · rw [if_pos hi] at hr
      obtain rfl : List.replicate nd (0:ℝ) = row := by injection hr
      simp
    · rw [if_neg hi] at hr
      cases hr

theorem zeroMatrix_entry (nk nd i j : ℕ) : entry (zeroMatrix nk nd) i j = 0 := by
  simp only [entry, zeroMatrix, List.getD_eq_getElem?_getD, List.getElem?_replicate]
  split_ifs with h1
  · rw [Option.getD_some, List.getElem?_replicate]
    split_ifs <;> simp
  · simp

theorem matAdd_shape {nk nd : ℕ} {a b : List (List ℝ)} (ha : ShapeOf nk nd a)
    (hb : ShapeOf nk nd b) : ShapeOf nk nd (matAdd a b) := by
  refine ⟨by rw [matAdd, List.length_zipWith, ha.1, hb.1, min_self], ?_⟩
  intro i row hr
  rw [matAdd, zipWith_getElem?] at hr
  cases hra : a[i]? with
  | none => rw [hra] at hr; cases hr
  | some ra =>
      cases hrb : b[i]? with
      | none => rw [hra, hrb] at hr; cases hr
      | some rb =>
          rw [hra, hrb] at hr
          obtain rfl : List.zipWith (· + ·) ra rb = row := by injection hr
          rw [List.length_zipWith, ha.2 i ra hra, hb.2 i rb hrb, min_self]

theorem matAdd_entry {nk nd : ℕ} {a b : List (List ℝ)} (ha : ShapeOf nk nd a)
    (hb : ShapeOf nk nd b) {i j : ℕ} (hi : i < nk) (hj : j < nd) :
    entry (matAdd a b) i j = entry a i j + entry b i j := by
  have hia : i < a.length := by rw [ha.1]; exact hi
  have hib : i < b.length := by rw [hb.1]; exact hi
  have hra : a[i]? = some a[i] := List.getElem?_eq_getElem hia
  have hrb : b[i]? = some b[i] := List.getElem?_eq_getElem hib
  have hja : j < a[i].length := by rw [ha.2 i a[i] hra]; exact hj
  have hjb : j < b[i].length := by rw [hb.2 i b[i] hrb]; exact hj
  have hsum : (matAdd a b)[i]? = some (List.zipWith (· + ·) a[i] b[i]) := by
    rw [matAdd, zipWith_getElem?, hra, hrb]
  have hz : (List.zipWith (· + ·) a[i] b[i])[j]? = some (a[i][j] + b[i][j]) := by
    rw [zipWith_getElem?, List.getElem?_eq_getElem hja, List.getElem?_eq_getElem hjb]
  rw [entry_of_getElem? hsum hz, entry_of_getElem? hra (List.getElem?_eq_getElem hja),
    entry_of_getElem? hrb (List.getElem?_eq_getElem hjb)]

theorem stackFold_none (cfg : HKConfig) (hilb : List ℝ → List ℂ) (n : ℕ)
    (depths kappas : List ℝ) :
    ∀ st : List Trace, st.foldl (stackStep cfg hilb n depths kappas) none = none
  | [] => rfl
  | tr :: st => by
      rw [List.foldl_cons]
      have h1 : stackStep cfg hilb n depths kappas none tr = none := rfl
      rw [h1]
      exact stackFold_none cfg hilb n depths kappas st

theorem stackStep_some {cfg : HKConfig} {hilb : List ℝ → List ℂ} {n : ℕ}
    {depths kappas : List ℝ} {A0 m : List (List ℝ)} {tr : Trace}
    (htm : traceMatrix cfg n hilb tr depths kappas = some m) :
    stackStep cfg hilb n depths kappas (some A0) tr = some (matAdd A0 m) := by
  simp [stackStep, htm]

theorem stackFold_spec (cfg : HKConfig) (hilb : List ℝ → List ℂ) (n : ℕ)
    (depths kappas : List ℝ) :
    ∀ (st : List Trace) (A0 A : List (List ℝ)),
      ShapeOf kappas.length depths.length A0 →
      st.foldl (stackStep cfg hilb n depths kappas) (some A0) = some A →
      ShapeOf kappas.length depths.length A ∧
        (∀ tr ∈ st, (traceMatrix cfg n hilb tr depths kappas).isSome = true) ∧
        ∀ i j, i < kappas.length → j < depths.length →
          entry A i j = entry A0 i j +
            (st.map (fun tr =>
              (traceCell cfg n hilb tr (depths.getD j 0) (kappas.getD i 0)).getD 0)).sum
  | [], A0, A, hsh, h => by
      rw [List.foldl_nil] at h
      injection h with h2
      subst h2
      exact ⟨hsh, by simp, by intro i j _ _; simp⟩
  | tr :: st, A0, A, hsh, h => by
      rw [List.foldl_cons] at h
      cases htm : traceMatrix cfg n hilb tr depths kappas with
      | none =>
          have hstep : stackStep cfg hilb n depths kappas (some A0) tr = none := by
            simp [stackStep, htm]
          rw [hstep, stackFold_none] at h
          cases h
      | some m =>
          rw [stackStep_some htm] at h
          obtain ⟨hshm, hcells⟩ := traceMatrix_spec htm
          have hsh' := matAdd_shape hsh hshm
          obtain ⟨hshA, hmem, hent⟩ := stackFold_spec cfg hilb n depths kappas st _ A hsh' h
          refine ⟨hshA, ?_, ?_⟩
          · intro tr2 htr2
            rcases List.mem_cons.mp htr2 with h2 | h2
            · subst h2; rw [htm]; rfl
            · exact hmem tr2 h2
          · intro i j hi hj
            rw [hent i j hi hj, matAdd_entry hsh hshm hi hj, List.map_cons, List.sum_cons,
              hcells i j hi hj]
            simp only [Option.getD_some]
            ring

theorem accumStack_spec {cfg : HKConfig} {hilb : List ℝ → List ℂ} {st : List Trace}
    {depths kappas : List ℝ} {A : List (List ℝ)}
    (h : accumStack cfg hilb st depths kappas = some A) :
    ShapeOf kappas.length depths.length A ∧
      (∀ tr ∈ st, (traceMatrix cfg st.length hilb tr depths kappas).isSome = true) ∧
      ∀ i j, i < kappas.length → j < depths.length →
        entry A i j = (st.map (fun tr =>
          (traceCell cfg st.length hilb tr (depths.getD j 0) (kappas.getD i 0)).getD 0)).sum := by
  rw [accumStack] at h
  obtain ⟨hsh, hmem, hent⟩ :=
    stackFold_spec cfg hilb st.length depths kappas st _ A
      (zeroMatrix_shape kappas.length depths.length) h
  refine ⟨hsh, hmem, ?_⟩
  intro i j hi hj
  rw [hent i j hi hj, zeroMatrix_entry, zero_add]

theorem matAdd_rows_nil {A0 B : List (List ℝ)} (h : ∀ row ∈ A0, row = []) :
    ∀ row ∈ matAdd A0 B, row = [] := by
  intro row hrow
  obtain ⟨i, hi⟩ := List.mem_iff_getElem?.mp hrow
  rw [matAdd, zipWith_getElem?] at hi
  cases hra : A0[i]? with
  | none => rw [hra] at hi; cases hi
  | some ra =>
      cases hrb : B[i]? with
      | none => rw [hra, hrb] at hi; cases hi
      | some rb =>
          rw [hra, hrb] at hi
          injection hi with hi2
          have hra' : ra ∈ A0 := List.mem_iff_getElem?.mpr ⟨i, hra⟩
          rw [h ra hra'] at hi2
          rw [← hi2]
          simp

theorem stackFold_nilAxis (cfg : HKConfig) (hilb : List ℝ → List ℂ) (n : ℕ)
    (depths kappas : List ℝ) (hax : depths = [] ∨ kappas = []) :
    ∀ (st : List Trace) (A0 : List (List ℝ)), (∀ row ∈ A0, row = []) →
      ∃ A, st.foldl (stackStep cfg hilb n depths kappas) (some A0) = some A ∧
        ∀ row ∈ A, row = []
  | [], A0, h0 => ⟨A0, rfl, h0⟩
  | tr :: st, A0, h0 => by
      have htm : ∃ m, traceMatrix cfg n hilb tr depths kappas = some m := by
        rcases hax with h | h
        · subst h
          refine ⟨kappas.map (fun _ => []), ?_⟩
          rw [traceMatrix]
          exact listOptMap_of_some (fun _ => []) kappas
        · subst h
          exact ⟨[], rfl⟩
      obtain ⟨m, hm⟩ := htm
      obtain ⟨A, hA, hAr⟩ :=
        stackFold_nilAxis cfg hilb n depths kappas hax st (matAdd A0 m) (matAdd_rows_nil h0)
      exact ⟨A, by rw [List.foldl_cons, stackStep_some hm]; exact hA, hAr⟩

/-! ### Evaluation helpers for concrete inputs -/

theorem truncZ_of_nonneg {x : ℝ} (h : 0 ≤ x) : truncZ x = ⌊x⌋ := if_pos h

theorem truncZ_of_neg {x : ℝ} (h : ¬0 ≤ x) : truncZ x = ⌈x⌉ := if_neg h

theorem interpAmp_const (c : ℝ) (m : ℕ) (t : ℝ) (ht : 0 ≤ t) (hlt : ⌊t⌋.toNat + 1 < m) :
    interpAmp ⟨List.replicate m c, 0, 1, 0⟩ t = some c := by
  have hfloor : (0:ℤ) ≤ ⌊t⌋ := Int.le_floor.mpr (by simpa using ht)
  have hidx : truncZ ((t - (0:ℝ)) / 1) = ⌊t⌋ := by
    rw [show ((t:ℝ) - 0) / 1 = t by ring, truncZ_of_nonneg ht]
  simp only [interpAmp, hidx]
  have h1 : npGet (List.replicate m c) ⌊t⌋ = some c := by
    rw [npGet, if_pos hfloor, List.getElem?_replicate, if_pos (by omega)]
  have h2 : npGet (List.replicate m c) (⌊t⌋ + 1) = some c := by
    rw [npGet, if_pos (by omega), List.getElem?_replicate, if_pos (by omega)]
  rw [h1, h2]
  norm_num

theorem traceCell_const_eval (cfg : HKConfig) (hvp : cfg.vp = 1 ∨ cfg.vp = -1)
    (hpws : cfg.pws = false) (c H : ℝ) (hH : H = 1 ∨ H = 2) (n : ℕ)
    (hilb : List ℝ → List ℂ) :
    traceCell cfg n hilb ⟨List.replicate 6 c, 0, 1, 0⟩ H 1 =
      some (cfg.w1 * c + cfg.w2 * c - cfg.w3 * c) := by
  have hvp2 : cfg.vp ^ 2 = 1 := by rcases hvp with h | h <;> rw [h] <;> norm_num
  have hetap : Real.sqrt (1 / cfg.vp ^ 2 - (0:ℝ) ^ 2) = 1 := by
    rw [hvp2]; norm_num
  have hetas : Real.sqrt (1 / (cfg.vp / 1) ^ 2 - (0:ℝ) ^ 2) = 1 := by
    rw [div_one, hvp2]; norm_num
  simp only [traceCell, hpws]
  rw [hetap, hetas]
  rcases hH with h | h <;> subst h
  · rw [show (1:ℝ) * (1 - 1) = 0 by ring, show (1:ℝ) * (1 + 1) = 2 by ring,
      show (1:ℝ) * (2 * 1) = 2 by ring,
      interpAmp_const c 6 0 (by norm_num) (by norm_num),
      interpAmp_const c 6 2 (by norm_num) (by norm_num; omega)]
    simp
  · rw [show (2:ℝ) * (1 - 1) = 0 by ring, show (2:ℝ) * (1 + 1) = 4 by ring,
      show (2:ℝ) * (2 * 1) = 4 by ring,
      interpAmp_const c 6 0 (by norm_num) (by norm_num),
      interpAmp_const c 6 4 (by norm_num) (by norm_num; omega)]
    simp

theorem traceMatrix_const_eval (cfg : HKConfig) (hvp : cfg.vp = 1 ∨ cfg.vp = -1)
    (hpws : cfg.pws = false) (c : ℝ) (n : ℕ) (hilb : List ℝ → List ℂ) :
    traceMatrix cfg n hilb ⟨List.replicate 6 c, 0, 1, 0⟩ [1, 2] [1] =
      some [[cfg.w1 * c + cfg.w2 * c - cfg.w3 * c,
             cfg.w1 * c + cfg.w2 * c - cfg.w3 * c]] := by
  have t1 := traceCell_const_eval cfg hvp hpws c 1 (Or.inl rfl) n hilb
  have t2 := traceCell_const_eval cfg hvp hpws c 2 (Or.inr rfl) n hilb
  rw [traceMatrix]
  simp only [listOptMap, t1, t2]

theorem accumStack_const_eval (cfg : HKConfig) (hvp : cfg.vp = 1 ∨ cfg.vp = -1)
    (hpws : cfg.pws = false) (c : ℝ) (hilb : List ℝ → List ℂ) :
    accumStack cfg hilb [⟨List.replicate 6 c, 0, 1, 0⟩] [1, 2] [1] =
      some [[cfg.w1 * c + cfg.w2 * c - cfg.w3 * c,
             cfg.w1 * c + cfg.w2 * c - cfg.w3 * c]] := by
  rw [accumStack, List.foldl_cons, List.foldl_nil]
  simp only [List.length_cons, List.length_nil, Nat.zero_add]
  rw [stackStep_some (traceMatrix_const_eval cfg hvp hpws c 1 hilb)]
  simp [zeroMatrix, matAdd]

theorem matMax_pair (x : ℝ) : matMax [[x, x]] = some x := by
  rw [matMax]
  have h1 : ([[x, x]] : List (List ℝ)).flatten = [x, x] := by simp
  rw [h1, show ([x, x] : List ℝ).max? = some (max x x) from rfl, max_self]

theorem argmaxCells_pair (x : ℝ) : argmaxCells [[x, x]] x = [(0, 0), (0, 1)] := by
  simp [argmaxCells, argmaxCellsFrom, argmaxRowFrom]

theorem arangeR_nil {start stop step : ℝ} (h : stop ≤ start) (hs : 0 < step) :
    arangeR start stop step = [] := by
  rw [arangeR]
  have h1 : (stop - start) / step ≤ 0 :=
    div_nonpos_of_nonpos_of_nonneg (by linarith) hs.le
  have h2 : (⌈(stop - start) / step⌉).toNat = 0 := by
    have h3 : ⌈(stop - start) / step⌉ ≤ 0 := Int.ceil_le.mpr (by exact_mod_cast h1)
    omega
  rw [h2]
  rfl

theorem arangeR_one_three : arangeR 1 3 1 = [1, 2] := by
  rw [arangeR, show (⌈((3:ℝ) - 1) / 1⌉).toNat = 2 by norm_num; rfl]
  norm_num [List.range_succ]

theorem arangeR_one_two : arangeR 1 2 1 = [1] := by
  rw [arangeR, show (⌈((2:ℝ) - 1) / 1⌉).toNat = 1 by norm_num]
  norm_num [List.range_succ]

theorem set_hkgrid_cfg0 : set_hkgrid cfg0 = ([1, 2], [1]) := by
  rw [set_hkgrid]
  simp only [cfg0]
  rw [arangeR_one_three, arangeR_one_two]

theorem set_hkgrid_cfgNegVp : set_hkgrid cfgNegVp = ([1, 2], [1]) := by
  rw [set_hkgrid]
  simp only [cfgNegVp]
  rw [arangeR_one_three, arangeR_one_two]

theorem set_hkgrid_cfgRev : set_hkgrid cfgRev = ([], [1]) := by
  rw [set_hkgrid]
  simp only [cfgRev]
  rw [arangeR_nil (by norm_num) (by norm_num), arangeR_one_two]

theorem core_ones : doHKStackCore cfg0 hilb0 [trOnes] [1, 2] [1] = some outOnes := by
  have hacc := accumStack_const_eval cfg0 (Or.inl rfl) rfl 1 hilb0
  have hw : cfg0.w1 * (1:ℝ) + cfg0.w2 * 1 - cfg0.w3 * 1 = 4/5 := by norm_num [cfg0]
  rw [hw] at hacc
  have hacc2 : accumStack cfg0 hilb0 [trOnes] [1, 2] [1] = some [[4/5, 4/5]] := hacc
  rw [doHKStackCore, hacc2]
  simp only [Option.bind_eq_bind, Option.some_bind, matMax_pair, argmaxCells_pair]
  simp [outOnes, cfg0, List.getD, max_eq_left, show max (4/5 : ℝ) 0 = 4/5 from
    max_eq_left (by norm_num)]

theorem core_negs : doHKStackCore cfg0 hilb0 [trNegs] [1, 2] [1] = some outNegs := by
  have hacc := accumStack_const_eval cfg0 (Or.inl rfl) rfl (-1) hilb0
  have hw : cfg0.w1 * (-1 : ℝ) + cfg0.w2 * (-1) - cfg0.w3 * (-1) = -(4/5) := by
    norm_num [cfg0]
  rw [hw] at hacc
  have hacc2 : accumStack cfg0 hilb0 [trNegs] [1, 2] [1] = some [[-(4/5), -(4/5)]] := hacc
  rw [doHKStackCore, hacc2]
  simp only [Option.bind_eq_bind, Option.some_bind, matMax_pair, argmaxCells_pair]
  simp [outNegs, cfg0, List.getD, show max (-(4/5) : ℝ) 0 = 0 from max_eq_right (by norm_num)]

theorem core_negvp : doHKStackCore cfgNegVp hilb0 [trOnes] [1, 2] [1] = some outNegVp := by
  have hacc := accumStack_const_eval cfgNegVp (Or.inr rfl) rfl 1 hilb0
  have hw : cfgNegVp.w1 * (1:ℝ) + cfgNegVp.w2 * 1 - cfgNegVp.w3 * 1 = 4/5 := by
    norm_num [cfgNegVp]
  rw [hw] at hacc
  have hacc2 : accumStack cfgNegVp hilb0 [trOnes] [1, 2] [1] = some [[4/5, 4/5]] := hacc
  rw [doHKStackCore, hacc2]
  simp only [Option.bind_eq_bind, Option.some_bind, matMax_pair, argmaxCells_pair]
  simp [outNegVp, cfgNegVp, List.getD, show max (4/5 : ℝ) 0 = 4/5 from
    max_eq_left (by norm_num)]

theorem runHK_ones : runHK cfg0 hilb0 [trOnes] = some outOnes := by
  rw [runHK, set_hkgrid_cfg0]
  exact core_ones

theorem runHK_negs : runHK cfg0 hilb0 [trNegs] = some outNegs := by
  rw [runHK, set_hkgrid_cfg0]
  exact core_negs

theorem runHK_negvp : runHK cfgNegVp hilb0 [trOnes] = some outNegVp := by
  rw [runHK, set_hkgrid_cfgNegVp]
  exact core_negvp

/-! ### Claim theorems -/

/-- C2: grid construction produces half-open ranges — each axis of
HKStack._set_hkgrid starts at its minimum, steps by its increment with the
upper bound excluded, has exactly ceil((end-start)/inc) values and is
strictly increasing; in particular the depth axis for range (30,40) with
increment 1 is exactly [30,...,39] and the kappa axis for range (1.6,2.0)
with increment 0.1 is exactly [1.6, 1.7, 1.8, 1.9]. -/
theorem c2_grid_construction :
    (∀ start stop inc : ℝ, 0 < inc →
      (arangeR start stop inc).length = (⌈(stop - start) / inc⌉).toNat ∧
      List.Pairwise (· < ·) (arangeR start stop inc) ∧
      (∀ x ∈ arangeR start stop inc, start ≤ x ∧ x < stop) ∧
      (start < stop → (arangeR start stop inc).head? = some start)) ∧
    arangeR 30 40 1 = [30, 31, 32, 33, 34, 35, 36, 37, 38, 39] ∧
    arangeR 1.6 2 0.1 = [1.6, 1.7, 1.8, 1.9] := by
  refine ⟨?_, ?_, ?_⟩
  · intro start stop inc hinc
    refine ⟨by rw [arangeR, List.length_map, List.length_range], ?_, ?_, ?_⟩
    · rw [arangeR, List.pairwise_map]
      refine (List.pairwise_lt_range _).imp ?_
      intro a b hab
      have h1 : (a : ℝ) < b := by exact_mod_cast hab
      have h2 := mul_lt_mul_of_pos_right h1 hinc
      linarith
    · intro x hx
      rw [arangeR] at hx
      obtain ⟨i, hi, rfl⟩ := List.mem_map.mp hx
      rw [List.mem_range] at hi
      constructor
      · have h1 : (0:ℝ) ≤ (i : ℝ) * inc := by positivity
        linarith
      · have hceil : (i : ℤ) < ⌈(stop - start) / inc⌉ := by omega
      -- i + 1 ≤ the ceiling, and the ceiling is < (stop-start)/inc + 1
        have h2 : ((i : ℝ) + 1) ≤ ⌈(stop - start) / inc⌉ := by exact_mod_cast hceil
        have h3 : (⌈(stop - start) / inc⌉ : ℝ) < (stop - start) / inc + 1 :=
          Int.ceil_lt_add_one _
        have h4 : (i : ℝ) < (stop - start) / inc := by linarith
        have h5 : (i : ℝ) * inc < (stop - start) / inc * inc :=
          mul_lt_mul_of_pos_right h4 hinc
        rw [div_mul_cancel₀ _ hinc.ne'] at h5
        linarith
    · intro hlt
      have hpos : 0 < ⌈(stop - start) / inc⌉ :=
        Int.ceil_pos.mpr (div_pos (by linarith) hinc)
      rw [arangeR, List.head?_eq_getElem?, List.getElem?_map, List.getElem?_range
        (by omega : 0 < (⌈(stop - start) / inc⌉).toNat)]
      simp
  · rw [arangeR, show (⌈((40:ℝ) - 30) / 1⌉).toNat = 10 by norm_num; rfl]
    norm_num [List.range_succ]
  · rw [arangeR, show (⌈((2:ℝ) - 1.6) / 0.1⌉).toNat = 4 by norm_num; rfl]
    norm_num [List.range_succ]

/-- Witness for C2: the general grid facts instantiated at the concrete
(30, 40, 1) axis. -/
theorem c2_grid_construction_witness :
    (arangeR 30 40 1).length = 10 ∧ List.Pairwise (· < ·) (arangeR 30 40 1) :=
  ⟨by rw [(c2_grid_construction.1 30 40 1 (by norm_num)).1]; norm_num; rfl,
   (c2_grid_construction.1 30 40 1 (by norm_num)).2.1⟩

/-- C5 counterexample: at predicted time t = -1/2 on a 3-sample trace the
fractional sample index (t - b)/delta = -1/2 lies outside the sample window
(it is negative, with floor -1), yet interpAmp silently returns an amplitude
(extrapolated from samples 0 and 1, because astype(int) truncates -1/2 to 0)
instead of failing with an error. -/
theorem c5_counterexample :
    interpAmp trC5 (-(1/2)) = some (-(1/2)) ∧
    ((-(1/2) : ℝ) - trC5.b) / trC5.delta < 0 ∧
    ⌊((-(1/2) : ℝ) - trC5.b) / trC5.delta⌋ = -1 := by
  refine ⟨?_, by norm_num [trC5], by norm_num [trC5]⟩
  have hidx : truncZ ((-(1/2) - trC5.b) / trC5.delta) = 0 := by
    rw [show ((-(1/2) : ℝ) - trC5.b) / trC5.delta = -(1/2) by norm_num [trC5],
      truncZ_of_neg (by norm_num)]
    norm_num
  simp only [interpAmp, hidx]
  have h0 : npGet trC5.data 0 = some 1 := rfl
  have h1 : npGet trC5.data (0 + 1) = some 4 := rfl
  rw [h0, h1]
  norm_num [trC5]

/-- C5 amended: predicted times are converted to the fractional index
(t - b)/delta and the sample index is that value truncated toward zero, which
for a nonnegative fractional index is its floor; the amplitude is then the
linear interpolation between the floor sample and the next one, and the
lookup fails (with a generic IndexError that does not name the trace)
precisely when floor + 1 reaches past the last sample. Negative fractional
indices are not rejected (see the counterexample). -/
theorem c5_amended_interpolation (tr : Trace) (t : ℝ)
    (hfrac : 0 ≤ (t - tr.b) / tr.delta) :
    truncZ ((t - tr.b) / tr.delta) = ⌊(t - tr.b) / tr.delta⌋ ∧
    (interpAmp tr t = none ↔
      tr.data.length ≤ (⌊(t - tr.b) / tr.delta⌋).toNat + 1) ∧
    ∀ a a1 : ℝ, tr.data[(⌊(t - tr.b) / tr.delta⌋).toNat]? = some a →
      tr.data[(⌊(t - tr.b) / tr.delta⌋).toNat + 1]? = some a1 →
      interpAmp tr t = some (a + (a1 - a) *
        (t - tr.b - (⌊(t - tr.b) / tr.delta⌋ : ℝ) * tr.delta) / tr.delta) := by
  have hfl : (0:ℤ) ≤ ⌊(t - tr.b) / tr.delta⌋ := Int.le_floor.mpr (by simpa using hfrac)
  have hidx : truncZ ((t - tr.b) / tr.delta) = ⌊(t - tr.b) / tr.delta⌋ :=
    truncZ_of_nonneg hfrac
  have hg0 : npGet tr.data ⌊(t - tr.b) / tr.delta⌋ =
      tr.data[(⌊(t - tr.b) / tr.delta⌋).toNat]? := by
    rw [npGet, if_pos hfl]
  have hg1 : npGet tr.data (⌊(t - tr.b) / tr.delta⌋ + 1) =
      tr.data[(⌊(t - tr.b) / tr.delta⌋).toNat + 1]? := by
    rw [npGet, if_pos (by omega)]
    congr 1
    omega
  refine ⟨hidx, ?_, ?_⟩
  · simp only [interpAmp, hidx, hg0, hg1]
    cases h0 : tr.data[(⌊(t - tr.b) / tr.delta⌋).toNat]? with
    | none =>
        have hlen := List.getElem?_eq_none_iff.mp h0
        have h1 : tr.data[(⌊(t - tr.b) / tr.delta⌋).toNat + 1]? = none :=
          List.getElem?_eq_none_iff.mpr (by omega)
        rw [h1]
        simp
        omega
    | some a =>
        cases h1 : tr.data[(⌊(t - tr.b) / tr.delta⌋).toNat + 1]? with
        | none =>
            have hlen := List.getElem?_eq_none_iff.mp h1
            simp
            omega
        | some a1 =>
            have hlt : (⌊(t - tr.b) / tr.delta⌋).toNat + 1 < tr.data.length := by
              rcases List.getElem?_eq_some_iff.mp h1 with ⟨h, _⟩
              exact h
            simp
            omega
  · intro a a1 h0 h1
    simp only [interpAmp, hidx, hg0, hg1, h0, h1]

/-- Witness for C5 (amended): on the concrete three-sample trace at t = 1/2
the fractional index is 1/2, the floor sample is 0, and interpolation between
samples 0 and 1 gives 5/2. -/
theorem c5_amended_interpolation_witness : interpAmp trC5 (1/2) = some (5/2) := by
  have hfrac : (0:ℝ) ≤ ((1/2 : ℝ) - trC5.b) / trC5.delta := by norm_num [trC5]
  have hfl : ⌊((1/2 : ℝ) - trC5.b) / trC5.delta⌋ = 0 := by norm_num [trC5]
  have ha : trC5.data[(⌊((1/2 : ℝ) - trC5.b) / trC5.delta⌋).toNat]? = some 1 := by
    rw [hfl]; rfl
  have hb : trC5.data[(⌊((1/2 : ℝ) - trC5.b) / trC5.delta⌋).toNat + 1]? = some 4 := by
    rw [hfl]; rfl
  have h := (c5_amended_interpolation trC5 (1/2) hfrac).2.2 1 4 ha hb
  rw [h, hfl]
  norm_num [trC5]

/-- C7: the quantity the phase-weighted branch builds from an analytic-signal
sample z is cos(z) + i·sin(z) = exp(i·z) with z itself complex, not the
unit-magnitude exponential of the instantaneous phase. At the sample value
z = -i (e.g. the analytic signal of the 4-sample trace [0, 1, 0, -1] at index
0 is exactly -i) its magnitude is e, not 1. -/
theorem c7_phasor_not_unit_magnitude :
    phasorOf (-Complex.I) = Complex.exp 1 ∧
    Complex.abs (phasorOf (-Complex.I)) = Real.exp 1 ∧ Real.exp 1 ≠ 1 := by
  have hexp : phasorOf (-Complex.I) = Complex.exp (-Complex.I * Complex.I) := by
    rw [Complex.exp_mul_I]
    rw [phasorOf]
    ring
  have h2 : (-Complex.I * Complex.I) = (1 : ℂ) := by
    rw [neg_mul, Complex.I_mul_I, neg_neg]
  rw [hexp, h2]
  refine ⟨rfl, ?_, ?_⟩
  · rw [Complex.abs_exp]
    norm_num
  · have := Real.exp_one_gt_d9
    intro hcontra
    rw [hcontra] at this
    norm_num at this

/-- C8: the tilt computed by HKStack._covariance_ellipse in the degenerate
case sigmah = sigmak is the arctangent of a division whose denominator is
exactly zero — there is no special-casing; under IEEE float arithmetic this
is inf (tilt ±π/4) for a nonzero numerator and NaN for the 0/0 case. -/
theorem c8_degenerate_tilt_divides_by_zero (s corr : ℝ) :
    ellipseTilt corr s s = Real.arctan (2 * corr * s * s / 0) / 2 := by
  rw [ellipseTilt, sub_self]

/-- C1 counterexample: a valid configuration (cfg0: vp = 1, increasing grid
ranges, positive increments) and a non-empty TraceSet (one all-negative
trace) for which the accumulated stack is negative everywhere, so the
pre-clip maximum is negative, clipping zeroes the whole surface and the
rescaled surface has maximum 0, not 100. -/
theorem c1_counterexample :
    runHK cfg0 hilb0 [trNegs] = some outNegs ∧
    matMax outNegs.stack = some 0 ∧ (0 : ℝ) ≠ 100 := by
  refine ⟨runHK_negs, ?_, by norm_num⟩
  have h : outNegs.stack = [[0, 0]] := rfl
  rw [h, matMax_pair]

/-- C1 amended: whenever the pre-clip maximum smax of the accumulated stack
is positive, the normalized surface produced by HKStack._do_hkstack has
maximum exactly 100 and all entries nonnegative. (When smax ≤ 0 — possible
for all-negative data — the normalized maximum is 0 instead; see the
counterexample.) -/
theorem c1_amended_normalization {cfg : HKConfig} {hilb : List ℝ → List ℂ}
    {stream : List Trace} {A : List (List ℝ)} {smax : ℝ}
    (hA : accumStack cfg hilb stream (set_hkgrid cfg).1 (set_hkgrid cfg).2 = some A)
    (hsm : matMax A = some smax) (hpos : 0 < smax) :
    (runHK cfg hilb stream).isSome = true ∧
    ∀ out, runHK cfg hilb stream = some out →
      matMax out.stack = some 100 ∧ ∀ row ∈ out.stack, ∀ x ∈ row, 0 ≤ x := by
  have hcore : doHKStackCore cfg hilb stream (set_hkgrid cfg).1 (set_hkgrid cfg).2 =
      some ⟨A.map (fun row => row.map (fun x => max x 0 * 100 / smax)),
        (argmaxCells A smax).map (fun c => (set_hkgrid cfg).1.getD c.2 0),
        (argmaxCells A smax).map (fun c => (set_hkgrid cfg).2.getD c.1 0),
        ((argmaxCells A smax).map (fun c => (set_hkgrid cfg).2.getD c.1 0)).map
          (fun κ => cfg.vp / κ)⟩ := by
    rw [doHKStackCore, hA]
    simp only [Option.bind_eq_bind, Option.some_bind, hsm]
    rfl
  have hrun : runHK cfg hilb stream =
      some ⟨A.map (fun row => row.map (fun x => max x 0 * 100 / smax)),
        (argmaxCells A smax).map (fun c => (set_hkgrid cfg).1.getD c.2 0),
        (argmaxCells A smax).map (fun c => (set_hkgrid cfg).2.getD c.1 0),
        ((argmaxCells A smax).map (fun c => (set_hkgrid cfg).2.getD c.1 0)).map
          (fun κ => cfg.vp / κ)⟩ := by
    rw [runHK]
    exact hcore
  refine ⟨by rw [hrun]; rfl, ?_⟩
  intro out hout
  rw [hrun] at hout
  injection hout with hout2
  subst hout2
  have hmono : Monotone (fun x : ℝ => max x 0 * 100 / smax) := by
    intro x y hxy
    have h1 : max x 0 ≤ max y 0 := max_le_max hxy le_rfl
    have h2 : max x 0 * 100 ≤ max y 0 * 100 := by linarith
    exact div_le_div_of_nonneg_right h2 hpos.le
  constructor
  · show matMax _ = some 100
    rw [matMax]
    have hflat : (List.map (fun row => row.map (fun x => max x 0 * 100 / smax)) A).flatten =
        A.flatten.map (fun x => max x 0 * 100 / smax) := (List.map_flatten _ _).symm
    rw [hflat]
    have hmax := max?_map_mono hmono (by rw [matMax] at hsm; exact hsm)
    rw [hmax]
    have : max smax 0 * 100 / smax = 100 := by
      rw [max_eq_left hpos.le]
      field_simp
    rw [this]
  · intro row hrow x hx
    obtain ⟨r, _, rfl⟩ := List.mem_map.mp hrow
    obtain ⟨y, _, rfl⟩ := List.mem_map.mp hx
    have h1 : (0:ℝ) ≤ max y 0 := le_max_right y 0
    positivity

/-- Witness for C1 (amended): on cfg0 with the all-ones trace the accumulated
stack is [[4/5, 4/5]], its maximum 4/5 is positive, and the normalized
surface [[100, 100]] has maximum exactly 100. -/
theorem c1_amended_normalization_witness :
    runHK cfg0 hilb0 [trOnes] = some outOnes ∧ matMax outOnes.stack = some 100 := by
  have hA : accumStack cfg0 hilb0 [trOnes] (set_hkgrid cfg0).1 (set_hkgrid cfg0).2 =
      some [[4/5, 4/5]] := by
    rw [set_hkgrid_cfg0]
    have hacc := accumStack_const_eval cfg0 (Or.inl rfl) rfl 1 hilb0
    have hw : cfg0.w1 * (1:ℝ) + cfg0.w2 * 1 - cfg0.w3 * 1 = 4/5 := by norm_num [cfg0]
    rw [hw] at hacc
    exact hacc
  have h := (c1_amended_normalization hA (matMax_pair (4/5)) (by norm_num)).2
    outOnes runHK_ones
  exact ⟨runHK_ones, h.1⟩

theorem argmaxRowFrom_mem (v : ℝ) :
    ∀ (row : List ℝ) (j0 j : ℕ), j ∈ argmaxRowFrom v j0 row ↔
      ∃ dj, j = j0 + dj ∧ row[dj]? = some v
  | [], j0, j => by simp [argmaxRowFrom]
  | x :: xs, j0, j => by
      rw [argmaxRowFrom]
      by_cases hx : x = v
      · rw [if_pos hx]
        constructor
        · intro hmem
          rcases List.mem_cons.mp hmem with h | h
          · exact ⟨0, by omega, by simp [hx, h]⟩
          · obtain ⟨dj, hdj, hget⟩ := (argmaxRowFrom_mem v xs (j0 + 1) j).mp h
            exact ⟨dj + 1, by omega, by simpa using hget⟩
        · rintro ⟨dj, rfl, hget⟩
          cases dj with
          | zero => simp
          | succ d =>
              refine List.mem_cons_of_mem _ ((argmaxRowFrom_mem v xs (j0 + 1) _).mpr ?_)
              exact ⟨d, by omega, by simpa using hget⟩
      · rw [if_neg hx]
        constructor
        · intro hmem
          obtain ⟨dj, hdj, hget⟩ := (argmaxRowFrom_mem v xs (j0 + 1) j).mp hmem
          exact ⟨dj + 1, by omega, by simpa using hget⟩
        · rintro ⟨dj, rfl, hget⟩
          cases dj with
          | zero =>
              exfalso
              apply hx
              simp at hget
              exact hget
          | succ d =>
              refine (argmaxRowFrom_mem v xs (j0 + 1) _).mpr ?_
              exact ⟨d, by omega, by simpa using hget⟩

theorem argmaxCellsFrom_mem (v : ℝ) :
    ∀ (m : List (List ℝ)) (i0 i j : ℕ), (i, j) ∈ argmaxCellsFrom v i0 m ↔
      ∃ di row, i = i0 + di ∧ m[di]? = some row ∧ row[j]? = some v
  | [], i0, i, j => by simp [argmaxCellsFrom]
  | row :: rows, i0, i, j => by
      rw [argmaxCellsFrom, List.mem_append]
      constructor
      · intro h
        rcases h with h | h
        · obtain ⟨j2, hj2, heq⟩ := List.mem_map.mp h
          obtain ⟨hi, hj⟩ : i0 = i ∧ j2 = j := by
            constructor <;> [exact congrArg Prod.fst heq; exact congrArg Prod.snd heq]
          obtain ⟨dj, hdj, hget⟩ := (argmaxRowFrom_mem v row 0 j2).mp hj2
          refine ⟨0, row, by omega, by simp, ?_⟩
          rw [← hj, hdj]
          simpa using hget
        · obtain ⟨di, row2, hi, hget, hrow⟩ :=
            (argmaxCellsFrom_mem v rows (i0 + 1) i j).mp h
          exact ⟨di + 1, row2, by omega, by simpa using hget, hrow⟩
      · rintro ⟨di, row2, rfl, hget, hrow⟩
        cases di with
        | zero =>
            left
            simp only [List.getElem?_cons_zero] at hget
            injection hget with hget2
            subst hget2
            refine List.mem_map.mpr ⟨j, ?_, by simp⟩
            exact (argmaxRowFrom_mem v row 0 j).mpr ⟨j, by omega, hrow⟩
        | succ d =>
            right
            refine (argmaxCellsFrom_mem v rows (i0 + 1) _ j).mpr ?_
            exact ⟨d, row2, by omega, by simpa using hget, hrow⟩

theorem argmaxCells_mem {m : List (List ℝ)} {v : ℝ} {i j : ℕ} :
    (i, j) ∈ argmaxCells m v ↔ ∃ row, m[i]? = some row ∧ row[j]? = some v := by
  rw [argmaxCells, argmaxCellsFrom_mem]
  constructor
  · rintro ⟨di, row, rfl, hget, hrow⟩
    exact ⟨row, by simpa using hget, hrow⟩
  · rintro ⟨row, hget, hrow⟩
    exact ⟨i, row, by omega, hget, hrow⟩

/-- C4 counterexample: on cfg0 with one all-ones trace the accumulated stack
is constant, every grid cell attains the pre-clip maximum, and the recorded
maxh holds BOTH tied cells [1, 2] (np.where returns all of them), not exactly
one cell as the claim asserts. -/
theorem c4_counterexample :
    runHK cfg0 hilb0 [trOnes] = some outOnes ∧
    outOnes.maxh = [1, 2] ∧ outOnes.maxh.length ≠ 1 := by
  refine ⟨runHK_ones, rfl, by simp [outOnes]⟩

/-- C4 amended: HKStack._do_hkstack records as maxh/maxk the coordinates of
ALL grid cells attaining the pre-clip maximum, enumerated in row-major (κ, H)
order; a cell is recorded iff its pre-clip entry equals the maximum, at least
one cell is recorded, and maxvs = vp / maxk elementwise. When the maximum is
attained at exactly one cell this list is that single cell. -/
theorem c4_amended_argmax {cfg : HKConfig} {hilb : List ℝ → List ℂ} {st : List Trace}
    {depths kappas : List ℝ} {A : List (List ℝ)} {smax : ℝ} {out : StackOut}
    (hA : accumStack cfg hilb st depths kappas = some A)
    (hsm : matMax A = some smax)
    (hout : doHKStackCore cfg hilb st depths kappas = some out) :
    (∀ i j : ℕ, (i, j) ∈ argmaxCells A smax ↔
      ∃ row, A[i]? = some row ∧ row[j]? = some smax) ∧
    out.maxh = (argmaxCells A smax).map (fun c => depths.getD c.2 0) ∧
    out.maxk = (argmaxCells A smax).map (fun c => kappas.getD c.1 0) ∧
    out.maxvs = out.maxk.map (fun κ => cfg.vp / κ) ∧
    out.maxh ≠ [] := by
  have hcore : doHKStackCore cfg hilb st depths kappas =
      some ⟨A.map (fun row => row.map (fun x => max x 0 * 100 / smax)),
        (argmaxCells A smax).map (fun c => depths.getD c.2 0),
        (argmaxCells A smax).map (fun c => kappas.getD c.1 0),
        ((argmaxCells A smax).map (fun c => kappas.getD c.1 0)).map
          (fun κ => cfg.vp / κ)⟩ := by
    rw [doHKStackCore, hA]
    simp only [Option.bind_eq_bind, Option.some_bind, hsm]
    rfl
  rw [hcore] at hout
  injection hout with hout2
  subst hout2
  refine ⟨fun i j => argmaxCells_mem, rfl, rfl, rfl, ?_⟩
  have hmem : smax ∈ A.flatten := by
    rw [matMax] at hsm
    exact (real_max?_eq_some_iff.mp hsm).1
  obtain ⟨row, hrowA, hsrow⟩ := List.mem_flatten.mp hmem
  obtain ⟨i, hi⟩ := List.mem_iff_getElem?.mp hrowA
  obtain ⟨j, hj⟩ := List.mem_iff_getElem?.mp hsrow
  have hcell : (i, j) ∈ argmaxCells A smax := argmaxCells_mem.mpr ⟨row, hi, hj⟩
  intro hnil
  rw [List.map_eq_nil_iff] at hnil
  rw [hnil] at hcell
  cases hcell

/-- Witness for C4 (amended): on the constant stack [[4/5, 4/5]] cell (0, 0)
is recorded (it attains the maximum), and maxvs is vp / maxk elementwise. -/
theorem c4_amended_argmax_witness :
    (0, 0) ∈ argmaxCells [[(4/5 : ℝ), 4/5]] (4/5) ∧
    outOnes.maxvs = outOnes.maxk.map (fun κ => cfg0.vp / κ) := by
  have hA : accumStack cfg0 hilb0 [trOnes] [1, 2] [1] = some [[4/5, 4/5]] := by
    have hacc := accumStack_const_eval cfg0 (Or.inl rfl) rfl 1 hilb0
    have hw : cfg0.w1 * (1:ℝ) + cfg0.w2 * 1 - cfg0.w3 * 1 = 4/5 := by norm_num [cfg0]
    rw [hw] at hacc
    exact hacc
  have h := c4_amended_argmax hA (matMax_pair (4/5)) core_ones
  exact ⟨(h.1 0 0).mpr ⟨[4/5, 4/5], rfl, rfl⟩, h.2.2.2.1⟩

theorem traceCell_linear_eq_contribSpec {cfg : HKConfig} (hpws : cfg.pws = false)
    (n : ℕ) (hilb : List ℝ → List ℂ) (tr : Trace) (H κ : ℝ) :
    traceCell cfg n hilb tr H κ = contribSpec cfg tr H κ := by
  simp only [traceCell, contribSpec, hpws, Bool.false_eq_true, if_false]

/-- C3: on the linear (pws = False) path, every entry (i, j) of the
accumulated stack equals the sum over the traces of the specification's
per-trace contribution w1·rf_Ps + w2·rf_PpPs - w3·rf_PpSs evaluated at the
cell (H = depths[j], κ = kappas[i]), where the travel times are
t_Ps = H·(η_s - η_p), t_PpPs = H·(η_s + η_p), t_PpSs = H·2·η_s with
η_p = sqrt(1/vp² - p²), η_s = sqrt(1/vs² - p²) and vs = vp/κ; every
per-trace contribution in the sum is defined (no index error). -/
theorem c3_travel_times_linear_stack {cfg : HKConfig} {hilb : List ℝ → List ℂ}
    {st : List Trace} {depths kappas : List ℝ} {A : List (List ℝ)}
    (hpws : cfg.pws = false)
    (hA : accumStack cfg hilb st depths kappas = some A)
    (i j : ℕ) (hi : i < kappas.length) (hj : j < depths.length) :
    (∀ tr ∈ st, (contribSpec cfg tr (depths.getD j 0) (kappas.getD i 0)).isSome = true) ∧
    entry A i j = (st.map (fun tr =>
      (contribSpec cfg tr (depths.getD j 0) (kappas.getD i 0)).getD 0)).sum := by
  obtain ⟨hsh, hmem, hent⟩ := accumStack_spec hA
  have hc : ∀ tr : Trace,
      traceCell cfg st.length hilb tr (depths.getD j 0) (kappas.getD i 0) =
        contribSpec cfg tr (depths.getD j 0) (kappas.getD i 0) :=
    fun tr => traceCell_linear_eq_contribSpec hpws st.length hilb tr _ _
  constructor
  · intro tr htr
    obtain ⟨M, hM⟩ := Option.isSome_iff_exists.mp (hmem tr htr)
    have h2 := (traceMatrix_spec hM).2 i j hi hj
    rw [hc tr] at h2
    rw [h2]
    rfl
  · rw [hent i j hi hj]
    simp only [hc]

/-- Witness for C3: on cfg0 with the single all-ones trace the stack entry at
cell (0, 0) equals the (one-term) sum of the specification contribution. -/
theorem c3_travel_times_linear_stack_witness :
    (contribSpec cfg0 trOnes 1 1).isSome = true ∧
    entry [[(4/5 : ℝ), 4/5]] 0 0 =
      ([trOnes].map (fun tr => (contribSpec cfg0 tr 1 1).getD 0)).sum := by
  have hA : accumStack cfg0 hilb0 [trOnes] [1, 2] [1] = some [[4/5, 4/5]] := by
    have hacc := accumStack_const_eval cfg0 (Or.inl rfl) rfl 1 hilb0
    have hw : cfg0.w1 * (1:ℝ) + cfg0.w2 * 1 - cfg0.w3 * 1 = 4/5 := by norm_num [cfg0]
    rw [hw] at hacc
    exact hacc
  have h := c3_travel_times_linear_stack rfl hA 0 0 (by norm_num) (by norm_num)
  exact ⟨h.1 trOnes (by simp), h.2⟩

/-- C9 counterexample: with the non-positive vp = -1 and an otherwise valid
grid and a non-empty TraceSet, the engine performs no rejection whatsoever:
the grid is built and the full stack is computed and returned. -/
theorem c9_counterexample :
    runHK cfgNegVp hilb0 [trOnes] = some outNegVp ∧ cfgNegVp.vp < 0 :=
  ⟨runHK_negvp, by norm_num [cfgNegVp]⟩

/-- C9 amended: the engine performs no upfront configuration validation;
non-positive vp (or delta) is accepted and stacked (see the counterexample),
and a non-increasing grid range produces an empty axis whose error surfaces
only inside the stacking computation, when np.amax is taken over a zero-size
accumulated stack. -/
theorem c9_amended_no_validation (cfg : HKConfig) (hilb : List ℝ → List ℂ)
    (stream : List Trace) (hne : stream ≠ [])
    (hzero : (0 < cfg.depth_inc ∧ cfg.depth_range.2 ≤ cfg.depth_range.1) ∨
             (0 < cfg.kappa_inc ∧ cfg.kappa_range.2 ≤ cfg.kappa_range.1)) :
    runHK cfg hilb stream = none := by
  have hax : (set_hkgrid cfg).1 = [] ∨ (set_hkgrid cfg).2 = [] := by
    rcases hzero with ⟨hi, hr⟩ | ⟨hi, hr⟩
    · exact Or.inl (by rw [set_hkgrid]; exact arangeR_nil hr hi)
    · exact Or.inr (by rw [set_hkgrid]; exact arangeR_nil hr hi)
  have h0 : ∀ row ∈ zeroMatrix (set_hkgrid cfg).2.length (set_hkgrid cfg).1.length,
      row = [] := by
    intro row hrow
    rw [zeroMatrix] at hrow
    rcases hax with h | h
    · rw [List.eq_of_mem_replicate hrow, h]
      rfl
    · rw [h] at hrow
      simp at hrow
  obtain ⟨A, hfold, hrows⟩ := stackFold_nilAxis cfg hilb stream.length
    (set_hkgrid cfg).1 (set_hkgrid cfg).2 hax stream _ h0
  have hacc : accumStack cfg hilb stream (set_hkgrid cfg).1 (set_hkgrid cfg).2 = some A := by
    rw [accumStack]
    exact hfold
  rw [runHK, doHKStackCore, hacc]
  have hflat : A.flatten = [] := List.flatten_eq_nil_iff.mpr hrows
  simp [matMax, hflat]

/-- Witness for C9 (amended): the reversed depth range (3, 1) with a
non-empty stream makes the whole run fail. -/
theorem c9_amended_no_validation_witness : runHK cfgRev hilb0 [trOnes] = none :=
  c9_amended_no_validation cfgRev hilb0 [trOnes] (by simp)
    (Or.inl ⟨by norm_num [cfgRev], by norm_num [cfgRev]⟩)

/-- C10: a bootstrap-mode invocation of HKStack._do_hkstack (is_bs = True)
returns its surface and optimum as values and leaves the stored primary
results stack, maxh, maxk and maxvs unchanged; only self.vs is rewritten on
that path. -/
theorem c10_bootstrap_frame {cfg : HKConfig} {hilb : List ℝ → List ℂ}
    {depths kappas : List ℝ} {s s2 : HKState} {r : Option StackOut}
    (h : do_hkstack cfg hilb depths kappas s true = some (s2, r)) :
    s2.stack = s.stack ∧ s2.maxh = s.maxh ∧ s2.maxk = s.maxk ∧
      s2.maxvs = s.maxvs ∧ r.isSome = true := by
  have h2 : do_hkstack cfg hilb depths kappas s true =
      match doHKStackCore cfg hilb s.bootstrap_st depths kappas with
      | none => none
      | some out =>
          some ({ s with vs := some (kappas.map (fun κ => cfg.vp / κ)) }, some out) := rfl
  rw [h2] at h
  cases hcore : doHKStackCore cfg hilb s.bootstrap_st depths kappas with
  | none => rw [hcore] at h; cases h
  | some out =>
      rw [hcore] at h
      simp only [Option.some.injEq, Prod.mk.injEq] at h
      obtain ⟨hs, hr⟩ := h
      subst hs
      refine ⟨rfl, rfl, rfl, rfl, ?_⟩
      rw [← hr]
      rfl

/-- Witness for C10: a concrete bootstrap-mode run on the state s0 succeeds,
returns the stack output as a value, and leaves the four primary-result
fields of the state untouched. -/
theorem c10_bootstrap_frame_witness :
    do_hkstack cfg0 hilb0 [1, 2] [1] s0 true = some (s1, some outOnes) ∧
    s1.stack = s0.stack ∧ s1.maxh = s0.maxh ∧ s1.maxk = s0.maxk ∧
      s1.maxvs = s0.maxvs := by
  have h2 : do_hkstack cfg0 hilb0 [1, 2] [1] s0 true =
      match doHKStackCore cfg0 hilb0 [trOnes] [1, 2] [1] with
      | none => none
      | some out =>
          some ({ s0 with vs := some ([1].map (fun κ => cfg0.vp / κ)) }, some out) := rfl
  have hrun : do_hkstack cfg0 hilb0 [1, 2] [1] s0 true = some (s1, some outOnes) := by
    rw [h2, core_ones]
    have hvs : ([1].map (fun κ => cfg0.vp / κ)) = ([1] : List ℝ) := by
      norm_num [cfg0]
    rw [hvs]
    rfl
  have h := c10_bootstrap_frame hrun
  exact ⟨hrun, h.1, h.2.1, h.2.2.1, h.2.2.2.1⟩

theorem div_div_div_same (a x c : ℝ) (hc : c ≠ 0) : a / c / (x / c) = a / x := by
  rcases eq_or_ne x 0 with hx | hx
  · rw [hx]
    simp
  · field_simp

/-- C6 counterexample: on the per-trial value lists [0, 2] the bootstrap
statistics return a standard deviation of 1 — np.std's population formula,
dividing by N — while the sample standard deviation (dividing by N - 1) of
the same values is sqrt 2 ≠ 1. -/
theorem c6_counterexample :
    (do_bootstrap_stats [0, 2] [0, 2]).2.1 = 1 ∧
    sampleStd [0, 2] = Real.sqrt 2 ∧ Real.sqrt 2 ≠ 1 := by
  refine ⟨?_, ?_, ?_⟩
  · show npStd [0, 2] = 1
    rw [npStd]
    have h : (([0, 2] : List ℝ).map (fun x => (x - npMean [0, 2]) ^ 2)).sum /
        (([0, 2] : List ℝ).length : ℝ) = 1 := by
      norm_num [npMean]
    rw [h, Real.sqrt_one]
  · rw [sampleStd]
    have h : (([0, 2] : List ℝ).map (fun x => (x - npMean [0, 2]) ^ 2)).sum /
        ((([0, 2] : List ℝ).length : ℝ) - 1) = 2 := by
      norm_num [npMean]
    rw [h]
  · intro h
    have h2 := Real.sqrt_eq_one.mp h
    norm_num at h2

/-- C6 amended: each bootstrap resample has exactly len(stream) elements, and
after the trials HKStack._do_bootstrap returns the POPULATION (divide-by-N,
np.std default) standard deviations of the per-trial kappa and depth maxima
together with their Pearson correlation coefficient (np.corrcoef's ddof
cancels, leaving exactly the Pearson formula). -/
theorem c6_amended_bootstrap_stats :
    (∀ (stream : List Trace) (pick : ℕ → ℕ),
      (make_bootstrap_st stream pick).length = stream.length ∧
      ((∀ i, i < stream.length → pick i < stream.length) →
        ∀ tr ∈ make_bootstrap_st stream pick, tr ∈ stream)) ∧
    (∀ ds ks : List ℝ, 2 ≤ ds.length → ds.length = ks.length →
      do_bootstrap_stats ds ks =
        (Real.sqrt ((ks.map (fun x => (x - npMean ks) ^ 2)).sum / ks.length),
         Real.sqrt ((ds.map (fun x => (x - npMean ds) ^ 2)).sum / ds.length),
         pearsonSpec ds ks)) := by
  constructor
  · intro stream pick
    constructor
    · rw [make_bootstrap_st, List.length_map, List.length_range]
    · intro hpick tr htr
      rw [make_bootstrap_st] at htr
      obtain ⟨i, hi, rfl⟩ := List.mem_map.mp htr
      rw [List.mem_range] at hi
      have hlt : pick i < stream.length := hpick i hi
      rw [List.getD_eq_getElem?_getD, List.getElem?_eq_getElem hlt, Option.getD_some]
      exact List.getElem_mem hlt
  · intro ds ks h2 hlen
    refine Prod.ext rfl (Prod.ext rfl ?_)
    show npCorrcoef ds ks = pearsonSpec ds ks
    have hcast : (2:ℝ) ≤ (ds.length : ℝ) := by exact_mod_cast h2
    have hc : ((ds.length : ℝ) - 1) ≠ 0 := by linarith
    have hS00 : (0:ℝ) ≤ (ds.map (fun x => (x - npMean ds) ^ 2)).sum := by
      apply List.sum_nonneg
      intro x hx
      obtain ⟨y, _, rfl⟩ := List.mem_map.mp hx
      positivity
    have hS11 : (0:ℝ) ≤ (ks.map (fun y => (y - npMean ks) ^ 2)).sum := by
      apply List.sum_nonneg
      intro x hx
      obtain ⟨y, _, rfl⟩ := List.mem_map.mp hx
      positivity
    rw [npCorrcoef, pearsonSpec, ← hlen]
    rw [Real.sqrt_div hS00 ((ds.length : ℝ) - 1), Real.sqrt_div hS11 ((ds.length : ℝ) - 1)]
    rw [div_mul_div_comm, Real.mul_self_sqrt (by linarith : (0:ℝ) ≤ (ds.length : ℝ) - 1)]
    rw [div_div_div_same _ _ _ hc]

/-- Witness for C6 (amended): a concrete two-trace resample keeps length 2,
and on the per-trial lists [0, 2] the statistics are the population standard
deviations and the Pearson coefficient. -/
theorem c6_amended_bootstrap_stats_witness :
    (make_bootstrap_st [trOnes, trNegs] (fun i => i)).length = 2 ∧
    trOnes ∈ ([trOnes, trNegs] : List Trace) ∧
    do_bootstrap_stats [0, 2] [0, 2] =
      (Real.sqrt ((([0, 2] : List ℝ).map
          (fun x => (x - npMean [0, 2]) ^ 2)).sum / (([0, 2] : List ℝ).length : ℝ)),
       Real.sqrt ((([0, 2] : List ℝ).map
          (fun x => (x - npMean [0, 2]) ^ 2)).sum / (([0, 2] : List ℝ).length : ℝ)),
       pearsonSpec [0, 2] [0, 2]) := by
  refine ⟨?_, ?_, ?_⟩
  · rw [(c6_amended_bootstrap_stats.1 [trOnes, trNegs] (fun i => i)).1]
    rfl
  · refine (c6_amended_bootstrap_stats.1 [trOnes, trNegs] (fun i => i)).2
      (fun i hi => hi) trOnes ?_
    rw [show make_bootstrap_st [trOnes, trNegs] (fun i => i) = [trOnes, trNegs] from rfl]
    simp
  · exact c6_amended_bootstrap_stats.2 [0, 2] [0, 2] (by norm_num) rfl
